import Mathlib

/-!
Shallow embedding of the Go package `ptr` (pointer-convenience helpers).

A Go pointer `*T` is modelled as an optional address into an explicit heap
of cells of type `T`; `nil` is `none`.  A Go slice is a view (base address
plus length) onto contiguous heap cells, because slice elements are
addressable in Go (`&values[i]` is legal and `ToSlice` uses it).  A Go
`map[string]T` is a value collection — its entries are not addressable —
modelled as an association list.  Go's zero value for `T` is `default`.
Each `def` below translates the body of the same-named function of
`ptr.go` (resp. the map-conversion file).
-/

namespace ptr

/-- Heap addresses. -/
abbrev Addr := Nat

/-- A Go pointer `*T`: `none` is nil, otherwise an address into the heap. -/
abbrev Ptr := Option Addr

/-- A heap of allocated cells of type `T`. -/
structure Heap (T : Type) where
  cells : List T
deriving DecidableEq

variable {T : Type}

/-- Dereference address `a` in heap `h`. -/
def deref [Inhabited T] (h : Heap T) (a : Addr) : T :=
  h.cells.getD a default

/-- Allocate a fresh cell holding `v` and return its address. -/
def alloc (h : Heap T) (v : T) : Addr × Heap T :=
  (h.cells.length, ⟨h.cells ++ [v]⟩)

/-- Go `To`: `return &v`.  The argument was already copied by Go's
call-by-value, so taking its address allocates a fresh cell. -/
def To (h : Heap T) (v : T) : Ptr × Heap T :=
  (some (alloc h v).1, (alloc h v).2)

/-- Go `From`: dereference, with the zero value for a nil pointer. -/
def From [Inhabited T] (h : Heap T) (p : Ptr) : T :=
  match p with
  | none => default
  | some a => deref h a

/-- Go `FromOr`: dereference, with the given default for a nil pointer. -/
def FromOr [Inhabited T] (h : Heap T) (p : Ptr) (defaultValue : T) : T :=
  match p with
  | none => defaultValue
  | some a => deref h a

/-- Go `Equal`: true when both nil, false when exactly one is nil, else
compare the pointed-to values. -/
def Equal [Inhabited T] [DecidableEq T] (h : Heap T) (a b : Ptr) : Bool :=
  match a, b with
  | none, none => true
  | none, some _ => false
  | some _, none => false
  | some x, some y => decide (deref h x = deref h y)

/-- Go `Copy`: nil gives nil; otherwise allocate a fresh cell holding a
shallow copy (`v := *p`) of the pointed-to value. -/
def Copy [Inhabited T] (h : Heap T) (p : Ptr) : Ptr × Heap T :=
  match p with
  | none => (none, h)
  | some a => (some (alloc h (deref h a)).1, (alloc h (deref h a)).2)

/-- Go `IsNil`. -/
def IsNil (p : Ptr) : Bool :=
  decide (p = none)

/-- Go `MustFrom`: dereference, or panic on nil; the panic is modelled as
the `Except.error` branch carrying the panic message. -/
def MustFrom [Inhabited T] (h : Heap T) (p : Ptr) : Except String T :=
  match p with
  | none => Except.error "ptr: nil pointer passed to MustFrom"
  | some a => Except.ok (deref h a)

/-- Go `Coalesce`: the first non-nil pointer of the list, else nil. -/
def Coalesce : List Ptr → Ptr
  | [] => none
  | p :: rest => if p ≠ none then p else Coalesce rest

/-- Go `Set`: write through a non-nil pointer, returning whether a write
happened. -/
def Set (h : Heap T) (p : Ptr) (value : T) : Bool × Heap T :=
  match p with
  | none => (false, h)
  | some a => (true, ⟨h.cells.set a value⟩)

/-- A Go slice header: base address of its backing cells and its length.
`none` at use sites stands for the nil slice. -/
structure GoSlice where
  base : Addr
  len : Nat
deriving DecidableEq

/-- Element `i` of a slice (`values[i]`). -/
def sliceGet [Inhabited T] (h : Heap T) (sl : GoSlice) (i : Nat) : T :=
  deref h (sl.base + i)

/-- Go `ToSlice`: nil gives nil; otherwise `result[i] = &values[i]`, the
address of the i-th backing cell of the input slice itself. -/
def ToSlice (values : Option GoSlice) : Option (List Ptr) :=
  values.map fun sl => (List.range sl.len).map fun i => some (sl.base + i)

/-- Go `FromSlice`: nil gives nil; otherwise `result[i] = From(ptrs[i])`. -/
def FromSlice [Inhabited T] (h : Heap T) (ptrs : Option (List Ptr)) :
    Option (List T) :=
  ptrs.map fun l => l.map (From h)

/-- A Go `map[string]V`: `none` is the nil map, otherwise its entries. -/
abbrev GoMap (V : Type) := Option (List (String × V))

/-- The loop of Go `ToMap`: for each entry, `v := v; result[k] = &v`
allocates one fresh cell per entry. -/
def allocEntries : Heap T → List (String × T) → List (String × Ptr) × Heap T
  | h, [] => ([], h)
  | h, (k, v) :: rest =>
    ((k, some (alloc h v).1) :: (allocEntries (alloc h v).2 rest).1,
      (allocEntries (alloc h v).2 rest).2)

/-- Go `ToMap`: nil gives nil; otherwise a same-key map of fresh pointers. -/
def ToMap (h : Heap T) (values : GoMap T) : GoMap Ptr × Heap T :=
  match values with
  | none => (none, h)
  | some m => (some (allocEntries h m).1, (allocEntries h m).2)

/-- Go `FromMap`: nil gives nil; otherwise `result[k] = From(ptrs[k])`. -/
def FromMap [Inhabited T] (h : Heap T) (ptrs : GoMap Ptr) : GoMap T :=
  ptrs.map fun m => m.map fun e => (e.1, From h e.2)

/-- Reading a freshly appended cell at the old length returns the new value. -/
theorem getD_concat_self {α : Type} (l : List α) (v d : α) :
    (l ++ [v]).getD l.length d = v := by
  rw [List.getD_append_right l [v] d l.length (Nat.le_refl _)]
  simp

/-- Writing a cell in bounds and reading it back returns the written value. -/
theorem getD_set_self {α : Type} (l : List α) (a : Nat) (x d : α)
    (h : a < l.length) : (l.set a x).getD a d = x := by
  rw [List.getD_eq_getElem (l.set a x) d (by simpa using h)]
  simp

/-- Writing one cell leaves every other cell unchanged. -/
theorem getD_set_ne {α : Type} (l : List α) (a b : Nat) (x d : α)
    (hab : a ≠ b) : (l.set a x).getD b d = l.getD b d := by
  induction l generalizing a b with
  | nil => rfl
  | cons y l ih =>
    cases a with
    | zero =>
      cases b with
      | zero => exact absurd rfl hab
      | succ b => rfl
    | succ a =>
      cases b with
      | zero => rfl
      | succ b => simpa using ih a b (by omega)

/-- Indexing a mapped range below its length evaluates the function. -/
theorem getD_range_map {α : Type} (f : Nat → α) (n i : Nat) (d : α)
    (h : i < n) : ((List.range n).map f).getD i d = f i := by
  rw [List.getD_eq_getElem ((List.range n).map f) d (by simpa using h)]
  simp

/-- The heap after `allocEntries` is the old heap extended by the entry
values, in order. -/
theorem allocEntries_cells (h : Heap T) (m : List (String × T)) :
    (allocEntries h m).2.cells = h.cells ++ m.map Prod.snd := by
  induction m generalizing h with
  | nil => simp [allocEntries]
  | cons e rest ih =>
    obtain ⟨k, v⟩ := e
    simp [allocEntries, alloc, ih]

/-- `allocEntries` preserves the key list exactly. -/
theorem allocEntries_keys (h : Heap T) (m : List (String × T)) :
    (allocEntries h m).1.map Prod.fst = m.map Prod.fst := by
  induction m generalizing h with
  | nil => simp [allocEntries]
  | cons e rest ih =>
    obtain ⟨k, v⟩ := e
    simp [allocEntries, alloc, ih]

/-- Looking up a present key after `allocEntries` yields a pointer to a
fresh cell holding that key's value. -/
theorem allocEntries_lookup [Inhabited T] (h : Heap T)
    (m : List (String × T)) (k : String) (v : T) :
    m.lookup k = some v →
      ∃ a, (allocEntries h m).1.lookup k = some (some a) ∧
        h.cells.length ≤ a ∧
        (allocEntries h m).2.cells.getD a default = v := by
  induction m generalizing h with
  | nil => intro hk; simp at hk
  | cons e rest ih =>
    intro hk
    obtain ⟨k2, v2⟩ := e
    by_cases hkk : k = k2
    · subst hkk
      have hv : v2 = v := by simpa [List.lookup_cons] using hk
      refine ⟨h.cells.length, ?_, Nat.le_refl _, ?_⟩
      · simp [allocEntries, alloc, List.lookup_cons]
      · rw [allocEntries_cells, List.getD_append_right _ _ _ _ (Nat.le_refl _)]
        simp [hv]
    · have hbeq : (k == k2) = false := beq_eq_false_iff_ne.mpr hkk
      have hrest : rest.lookup k = some v := by
        simpa [List.lookup_cons, hbeq] using hk
      obtain ⟨a, ha1, ha2, ha3⟩ := ih ⟨h.cells ++ [v2]⟩ hrest
      refine ⟨a, ?_, ?_, ?_⟩
      · simpa [allocEntries, alloc, List.lookup_cons, hbeq] using ha1
      · have : h.cells.length + 1 ≤ a := by simpa using ha2
        omega
      · simpa [allocEntries, alloc] using ha3

/-- C1: for every heap and every value `v`, dereferencing the pointer built
by `To` returns `v`: the construct-then-extract round trip is the
identity. -/
theorem c1_from_to_roundtrip [Inhabited T] (h : Heap T) (v : T) :
    From (To h v).2 (To h v).1 = v := by
  simp [To, From, alloc, deref, getD_concat_self]

/-- C2 (amended): on a non-nil input slice, `ToSlice` produces a same-length
slice whose i-th element is a non-nil pointer to the i-th element of the
input slice itself; the produced pointers are pairwise distinct, so a write
through one changes no other element, but a write through a produced
pointer updates the corresponding element of the input slice. -/
theorem c2_toSlice_aliases_input [Inhabited T] (h : Heap T) (sl : GoSlice)
    (ps : List Ptr) (hps : ToSlice (some sl) = some ps)
    (hvalid : sl.base + sl.len ≤ h.cells.length) :
    ps.length = sl.len ∧
    (∀ i, i < sl.len → ps.getD i none = some (sl.base + i)) ∧
    (∀ i, i < sl.len → From h (ps.getD i none) = sliceGet h sl i) ∧
    (∀ i j, i < sl.len → j < sl.len → i ≠ j →
      ps.getD i none ≠ ps.getD j none) ∧
    (∀ i j x, i < sl.len → j < sl.len → i ≠ j →
      From (Set h (ps.getD i none) x).2 (ps.getD j none)
        = From h (ps.getD j none)) ∧
    (∀ i x, i < sl.len → sliceGet (Set h (ps.getD i none) x).2 sl i = x) := by
  have hps2 : ps = (List.range sl.len).map fun i => some (sl.base + i) := by
    simpa [ToSlice] using hps.symm
  subst hps2
  refine ⟨by simp, fun i hi => getD_range_map _ _ _ _ hi, ?_, ?_, ?_, ?_⟩
  · intro i hi
    rw [getD_range_map _ _ _ _ hi]
    rfl
  · intro i j hi hj hij
    rw [getD_range_map _ _ _ _ hi, getD_range_map _ _ _ _ hj]
    simpa using hij
  · intro i j x hi hj hij
    rw [getD_range_map _ _ _ _ hi, getD_range_map _ _ _ _ hj]
    simp only [Set, From, deref]
    exact getD_set_ne _ _ _ _ _ fun hc => hij (Nat.add_left_cancel hc)
  · intro i x hi
    rw [getD_range_map _ _ _ _ hi]
    simp only [Set, sliceGet, deref]
    exact getD_set_self _ _ _ _
      (Nat.lt_of_lt_of_le (Nat.add_lt_add_left hi sl.base) hvalid)

/-- C2 witness: on the concrete heap `[10, 20]` backing a slice of length 2
at base 0, writing 77 through the first produced pointer updates element 0
of the input slice. -/
theorem c2_toSlice_witness :
    sliceGet (Set (Heap.mk [(10 : Int), 20]) (some 0) 77).2 ⟨0, 2⟩ 0 = 77 :=
  (c2_toSlice_aliases_input (Heap.mk [(10 : Int), 20]) ⟨0, 2⟩
    [some 0, some 1] (by decide) (by decide)).2.2.2.2.2 0 77 (by decide)

/-- C2 counterexample: with a one-element input slice holding 42, the
pointer produced by `ToSlice` aliases the input element, so writing 99
through it changes the input slice's element from 42 to 99 — refuting the
claim that writing through a produced pointer leaves the input slice
unchanged. -/
theorem c2_toSlice_counterexample :
    sliceGet (Heap.mk [(42 : Int)]) ⟨0, 1⟩ 0 = 42 ∧
    ((ToSlice (some ⟨0, 1⟩)).getD []).getD 0 none = some 0 ∧
    sliceGet (Set (Heap.mk [(42 : Int)])
      (((ToSlice (some ⟨0, 1⟩)).getD []).getD 0 none) 99).2 ⟨0, 1⟩ 0 = 99 ∧
    ¬ sliceGet (Set (Heap.mk [(42 : Int)])
      (((ToSlice (some ⟨0, 1⟩)).getD []).getD 0 none) 99).2 ⟨0, 1⟩ 0 = 42 := by
  decide

/-- C3: `MustFrom` returns the pointed-to value on every non-nil pointer,
and produces the invalid-dereference panic exactly when the pointer is
nil. -/
theorem c3_mustFrom_panics_iff_nil [Inhabited T] (h : Heap T) (p : Ptr) :
    (∀ a, p = some a → MustFrom h p = Except.ok (deref h a)) ∧
    (MustFrom h p = Except.error "ptr: nil pointer passed to MustFrom"
      ↔ p = none) := by
  cases p <;> simp [MustFrom]

/-- C3 witness: on the concrete heap `[7]`, `MustFrom` of address 0 is
`ok 7`. -/
theorem c3_mustFrom_witness :
    MustFrom (Heap.mk [(7 : Int)]) (some 0) = Except.ok 7 :=
  (c3_mustFrom_panics_iff_nil (Heap.mk [(7 : Int)]) (some 0)).1 0 rfl

/-- C4: each collection conversion maps nil to nil, a present empty
collection to a present empty collection, and preserves the length
(slices) or the exact key list (maps). -/
theorem c4_collection_conversions [Inhabited T] (h : Heap T) :
    ToSlice none = none ∧
    (∀ b : Addr, ToSlice (some ⟨b, 0⟩) = some []) ∧
    (∀ sl : GoSlice, ∃ ps, ToSlice (some sl) = some ps ∧
      ps.length = sl.len) ∧
    FromSlice h none = none ∧
    FromSlice h (some []) = some [] ∧
    (∀ l : List Ptr, ∃ vs, FromSlice h (some l) = some vs ∧
      vs.length = l.length) ∧
    (ToMap h none).1 = none ∧
    (ToMap h (some [])).1 = some [] ∧
    (∀ m : List (String × T), ∃ m2, (ToMap h (some m)).1 = some m2 ∧
      m2.map Prod.fst = m.map Prod.fst) ∧
    FromMap h none = none ∧
    FromMap h (some []) = some [] ∧
    (∀ m : List (String × Ptr), ∃ m2, FromMap h (some m) = some m2 ∧
      m2.map Prod.fst = m.map Prod.fst) :=
  ⟨rfl, fun _ => rfl, fun sl => ⟨_, rfl, by simp [ToSlice]⟩, rfl, rfl,
    fun l => ⟨_, rfl, by simp [FromSlice]⟩, rfl, rfl,
    fun m => ⟨_, rfl, allocEntries_keys h m⟩, rfl, rfl,
    fun m => ⟨_, rfl, by simp [FromMap]⟩⟩

/-- C5: `From` on nil is the zero value, `FromOr` on nil is the supplied
default, and on any non-nil pointer both return the pointed-to value. -/
theorem c5_from_fromOr_total [Inhabited T] (h : Heap T) (d : T) :
    From h none = (default : T) ∧ FromOr h none d = d ∧
    (∀ a : Addr, From h (some a) = deref h a ∧
      FromOr h (some a) d = deref h a) :=
  ⟨rfl, rfl, fun _ => ⟨rfl, rfl⟩⟩

/-- C6: `Equal` is true on two nil pointers, false when exactly one side is
nil, and otherwise compares the held values. -/
theorem c6_equal_cases [Inhabited T] [DecidableEq T] (h : Heap T) :
    Equal h none none = true ∧
    (∀ a : Addr, Equal h (some a) none = false ∧
      Equal h none (some a) = false) ∧
    (∀ a b : Addr, Equal h (some a) (some b) = true
      ↔ deref h a = deref h b) := by
  refine ⟨rfl, fun _ => ⟨rfl, rfl⟩, fun a b => ?_⟩
  simp [Equal]

/-- C7: `Copy` of nil is nil; on a valid non-nil pointer it returns a
distinct non-nil pointer holding the same value, and then `Set` through
the original succeeds and leaves the copy's held value unchanged. -/
theorem c7_copy_independent [Inhabited T] (h : Heap T) :
    Copy h none = (none, h) ∧
    ∀ a, a < h.cells.length →
      (Copy h (some a)).1 ≠ none ∧
      (Copy h (some a)).1 ≠ some a ∧
      From (Copy h (some a)).2 (Copy h (some a)).1 = deref h a ∧
      ∀ x, (Set (Copy h (some a)).2 (some a) x).1 = true ∧
        From (Set (Copy h (some a)).2 (some a) x).2 (Copy h (some a)).1
          = deref h a := by
  refine ⟨rfl, fun a ha => ⟨by simp [Copy, alloc], ?_, ?_, fun x => ⟨rfl, ?_⟩⟩⟩
  · simp only [Copy, alloc]
    intro hc
    exact Nat.ne_of_gt ha (Option.some.inj hc)
  · simp [Copy, alloc, From, deref, getD_concat_self]
  · simp only [Copy, alloc, From, Set, deref]
    rw [getD_set_ne _ _ _ _ _ (Nat.ne_of_lt ha)]
    exact getD_concat_self _ _ _

/-- C7 witness: on the concrete heap `[5]`, the copy of the pointer to cell
0 still holds 5 after the original cell is overwritten with 99. -/
theorem c7_copy_witness :
    From (Set (Copy (Heap.mk [(5 : Int)]) (some 0)).2 (some 0) 99).2
      (Copy (Heap.mk [(5 : Int)]) (some 0)).1 = 5 := by
  simpa [deref] using
    (((c7_copy_independent (Heap.mk [(5 : Int)])).2 0 (by decide)).2.2.2 99).2

/-- C8: `Coalesce` returns nil exactly when every argument is nil
(including the empty argument list), and otherwise returns the first
non-nil argument in order. -/
theorem c8_coalesce_first_non_nil (ptrs : List Ptr) :
    (Coalesce ptrs = none ↔ ∀ p ∈ ptrs, p = none) ∧
    (∀ i, i < ptrs.length → ptrs.getD i none ≠ none →
      (∀ j, j < i → ptrs.getD j none = none) →
      Coalesce ptrs = ptrs.getD i none) := by
  induction ptrs with
  | nil => exact ⟨by simp [Coalesce], fun i hi => absurd hi (by simp)⟩
  | cons p rest ih =>
    constructor
    · cases p with
      | none => simpa [Coalesce] using ih.1
      | some a => simp [Coalesce]
    · intro i hi hne hprev
      cases i with
      | zero =>
        cases p with
        | none => exact absurd rfl hne
        | some a => simp [Coalesce]
      | succ i =>
        have h0 : p = none := hprev 0 (Nat.succ_pos _)
        subst h0
        simpa [Coalesce] using ih.2 i (by simpa using hi)
          (by simpa using hne)
          (fun j hj => by simpa using hprev (j + 1) (by omega))

/-- C8 witness: among `[nil, nil, 2, 5]` the first non-nil pointer, the one
holding address 2, is returned. -/
theorem c8_coalesce_witness :
    Coalesce [none, none, some 2, some 5] = some 2 := by
  simpa using (c8_coalesce_first_non_nil [none, none, some 2, some 5]).2 2
    (by decide) (by decide) (by decide)

/-- C9: for every key present in a non-nil input map, `ToMap` yields a
non-nil pointer to a freshly allocated cell holding that entry's value;
writing any value through that pointer succeeds and the input map's entry
is unchanged. -/
theorem c9_toMap_fresh_copy [Inhabited T] (h : Heap T)
    (m : List (String × T)) (k : String) (v : T)
    (hk : m.lookup k = some v) :
    ∃ a, ((ToMap h (some m)).1.getD []).lookup k = some (some a) ∧
      h.cells.length ≤ a ∧
      deref (ToMap h (some m)).2 a = v ∧
      ∀ x, (Set (ToMap h (some m)).2 (some a) x).1 = true ∧
        m.lookup k = some v := by
  obtain ⟨a, h1, h2, h3⟩ := allocEntries_lookup h m k v hk
  exact ⟨a, by simpa [ToMap] using h1, h2,
    by simpa [ToMap, deref] using h3, fun _ => ⟨rfl, hk⟩⟩

/-- C9 witness: starting from the empty heap and the one-entry map
`{"a" ↦ 7}`, `ToMap` produces a fresh non-nil pointer holding 7. -/
theorem c9_toMap_witness :
    ∃ a, ((ToMap (Heap.mk ([] : List Int)) (some [("a", 7)])).1.getD
        []).lookup "a" = some (some a) ∧
      (Heap.mk ([] : List Int)).cells.length ≤ a ∧
      deref (ToMap (Heap.mk ([] : List Int)) (some [("a", 7)])).2 a = 7 ∧
      ∀ x, (Set (ToMap (Heap.mk ([] : List Int))
          (some [("a", 7)])).2 (some a) x).1 = true ∧
        ([("a", 7)] : List (String × Int)).lookup "a" = some 7 :=
  c9_toMap_fresh_copy (Heap.mk []) [("a", 7)] "a" 7 (by decide)

/-- C10: `From` is exactly `FromOr` specialized to the zero-value
default. -/
theorem c10_from_refines_fromOr [Inhabited T] (h : Heap T) (p : Ptr) :
    From h p = FromOr h p default := by
  cases p <;> rfl

end ptr
